import Mathlib

/-!
Verification development for the G-code variable substitution and
dual-content-tracking engine of the nipuer_cnc_helper repository
(`src/gcode_generator.py` and the execution-order derivation in
`src/ui/frame/frame_tab.py`).

Python dictionaries are modelled as association lists with
replace-in-place insertion (matching Python dict assignment) and
first-match lookup.  Numeric dictionary values are modelled as integers
or strings (`PyValue`); floating point is out of scope for the claims
settled here.
-/

namespace NipuerCNC

/-- Python dict assignment `d[k] = v`: replace the existing binding in
place if the key is present, otherwise append at the end. -/
def dictInsert {α : Type} (k : String) (v : α) : List (String × α) → List (String × α)
  | [] => [(k, v)]
  | (k₂, v₂) :: rest => if k₂ = k then (k, v) :: rest else (k₂, v₂) :: dictInsert k v rest

/-- Python dict lookup `d.get(k)`: first binding with the given key. -/
def dlookup {α : Type} (k : String) : List (String × α) → Option α
  | [] => none
  | (k₂, v) :: rest => if k₂ = k then some v else dlookup k rest

/-- A value stored in one of the Python dictionaries consumed by the
generator: either a string or an integer.  `toStr` models Python `str()`. -/
inductive PyValue where
  | s (v : String)
  | n (v : Int)
deriving DecidableEq

def PyValue.toStr : PyValue → String
  | .s v => v
  | .n v => toString v

/-! ## Variable Resolver (`GCodeGenerator._substitute_variables`)

The Python code applies `re.sub` with the pattern
`\{(\$?[^}:]+)(?::([^}]*))?\}` to the template, replacing each match by
`values.get(name, default)` where a missing default is the empty string.
For this pattern the regex semantics reduce to: at each `{`, take the
maximal nonempty run of characters other than `}` and `:` as the name;
then either a `}` ends the match (no default), or a `:` followed by a run
of non-`}` characters and a `}` ends it (that run is the default); if no
match starts at a `{`, the brace is literal text and scanning resumes at
the next character.  Replacement text is never rescanned (`re.sub`
continues after the match). -/

/-- Characters that terminate the name part of a placeholder. -/
def nameEnd (c : Char) : Bool := c = '}' || c = ':'

/-- Attempt to match the body of a placeholder immediately after a `{`.
Returns the name, the default text (empty when absent, matching
`match.group(2) if ... else ""`), and the unconsumed rest. -/
def tryMatch (l : List Char) : Option (String × String × List Char) :=
  if (l.takeWhile fun c => !(nameEnd c)).isEmpty then none
  else
    match l.dropWhile (fun c => !(nameEnd c)) with
    | '}' :: r => some (⟨l.takeWhile fun c => !(nameEnd c)⟩, "", r)
    | ':' :: r =>
      match r.dropWhile (fun c => c ≠ '}') with
      | '}' :: r₂ => some (⟨l.takeWhile fun c => !(nameEnd c)⟩, ⟨r.takeWhile fun c => c ≠ '}'⟩, r₂)
      | _ => none
    | _ => none

theorem tryMatch_length {l : List Char} {name dflt : String} {r : List Char}
    (h : tryMatch l = some (name, dflt, r)) : r.length < l.length := by
  have hlen : ((l.takeWhile fun c => !(nameEnd c)) ++ (l.dropWhile fun c => !(nameEnd c))).length
      = l.length := by rw [List.takeWhile_append_dropWhile]
  rw [List.length_append] at hlen
  rw [tryMatch] at h
  split at h
  · simp at h
  · split at h
    next r₁ heq =>
      rw [heq] at hlen
      injection h with h'
      have hr : r₁ = r := congrArg (fun x => x.2.2) h'
      subst hr
      simp only [List.length_cons] at hlen
      omega
    next r₁ heq =>
      have hlen₂ : ((r₁.takeWhile fun c => c ≠ '}') ++ (r₁.dropWhile fun c => c ≠ '}')).length
          = r₁.length := by rw [List.takeWhile_append_dropWhile]
      rw [List.length_append] at hlen₂
      split at h
      next r₂ heq₂ =>
        rw [heq] at hlen
        rw [heq₂] at hlen₂
        injection h with h'
        have hr : r₂ = r := congrArg (fun x => x.2.2) h'
        subst hr
        simp only [List.length_cons] at hlen hlen₂
        omega
      next => simp at h
    next => simp at h

/-- Fuel-driven scanner implementing `re.sub` for the placeholder
pattern; fuel is decremented once per step and `l.length` fuel always
suffices because every step consumes at least one character. -/
def scanSubstF (values : List (String × String)) : Nat → List Char → List Char
  | _, [] => []
  | 0, l => l
  | fuel + 1, c :: rest =>
    if c = '{' then
      match tryMatch rest with
      | some (name, dflt, r) =>
        ((dlookup name values).getD dflt).data ++ scanSubstF values fuel r
      | none => c :: scanSubstF values fuel rest
    else c :: scanSubstF values fuel rest

theorem scanSubstF_step (values : List (String × String)) :
    ∀ fuel l, l.length ≤ fuel → scanSubstF values (fuel + 1) l = scanSubstF values fuel l := by
  intro fuel
  induction fuel with
  | zero =>
    intro l hl
    have : l = [] := List.length_eq_zero.mp (Nat.le_zero.mp hl)
    subst this
    rfl
  | succ n ih =>
    intro l hl
    match l with
    | [] => rfl
    | c :: rest =>
      simp only [List.length_cons, Nat.add_le_add_iff_right] at hl
      show scanSubstF values (n + 1 + 1) (c :: rest) = scanSubstF values (n + 1) (c :: rest)
      simp only [scanSubstF]
      by_cases hc : c = '{'
      · subst hc
        simp only [if_pos rfl]
        rcases hm : tryMatch rest with _ | ⟨name, dflt, r⟩
        · simp [ih rest hl]
        · have hr : r.length ≤ n := Nat.le_of_lt (Nat.lt_of_lt_of_le (tryMatch_length hm) hl)
          simp [ih r hr]
      · simp [hc, ih rest hl]

theorem scanSubstF_of_le (values : List (String × String)) :
    ∀ fuel l, l.length ≤ fuel → scanSubstF values fuel l = scanSubstF values l.length l := by
  intro fuel
  induction fuel with
  | zero =>
    intro l hl
    have : l = [] := List.length_eq_zero.mp (Nat.le_zero.mp hl)
    subst this; rfl
  | succ n ih =>
    intro l hl
    rcases Nat.lt_or_ge l.length (n + 1) with h | h
    · have h₂ : l.length ≤ n := Nat.le_of_lt_succ h
      rw [scanSubstF_step values n l h₂, ih l h₂]
    · have : l.length = n + 1 := Nat.le_antisymm hl h
      rw [this]

/-- List-level substitution scan with exactly enough fuel. -/
def scanSubst (values : List (String × String)) (l : List Char) : List Char :=
  scanSubstF values l.length l

/-- `GCodeGenerator._substitute_variables(gcode, values)`. -/
def substituteVariables (gcode : String) (values : List (String × String)) : String :=
  ⟨scanSubst values gcode.data⟩

theorem scanSubst_nil (values : List (String × String)) : scanSubst values [] = [] := rfl

theorem scanSubst_cons_ne (values : List (String × String)) (c : Char) (rest : List Char)
    (hc : ¬ c = '{') : scanSubst values (c :: rest) = c :: scanSubst values rest := by
  show scanSubstF values (rest.length + 1) (c :: rest) = c :: scanSubstF values rest.length rest
  simp [scanSubstF, hc]

theorem scanSubst_cons_none (values : List (String × String)) (rest : List Char)
    (hm : tryMatch rest = none) :
    scanSubst values ('{' :: rest) = '{' :: scanSubst values rest := by
  show scanSubstF values (rest.length + 1) ('{' :: rest) = '{' :: scanSubstF values rest.length rest
  simp [scanSubstF, hm]

theorem scanSubst_cons_some (values : List (String × String)) (rest : List Char)
    (name dflt : String) (r : List Char) (hm : tryMatch rest = some (name, dflt, r)) :
    scanSubst values ('{' :: rest) =
      ((dlookup name values).getD dflt).data ++ scanSubst values r := by
  show scanSubstF values (rest.length + 1) ('{' :: rest) = _
  have hr : r.length ≤ rest.length := Nat.le_of_lt (tryMatch_length hm)
  simp only [scanSubstF, if_pos rfl, hm]
  rw [scanSubstF_of_le values rest.length r hr]
  rfl

theorem takeWhile_append_cons (p : Char → Bool) (l₁ : List Char) (c : Char) (l₂ : List Char)
    (h₁ : ∀ x ∈ l₁, p x) (h₂ : ¬ p c) : (l₁ ++ c :: l₂).takeWhile p = l₁ := by
  induction l₁ with
  | nil => simp [List.takeWhile_cons, h₂]
  | cons a l ih =>
    have ha : p a := h₁ a (List.mem_cons_self a l)
    simp only [List.cons_append, List.takeWhile_cons, ha, if_true]
    rw [ih (fun x hx => h₁ x (List.mem_cons_of_mem a hx))]

theorem dropWhile_append_cons (p : Char → Bool) (l₁ : List Char) (c : Char) (l₂ : List Char)
    (h₁ : ∀ x ∈ l₁, p x) (h₂ : ¬ p c) : (l₁ ++ c :: l₂).dropWhile p = c :: l₂ := by
  induction l₁ with
  | nil => simp [List.dropWhile_cons, h₂]
  | cons a l ih =>
    have ha : p a := h₁ a (List.mem_cons_self a l)
    simp only [List.cons_append, List.dropWhile_cons, ha, if_true]
    exact ih (fun x hx => h₁ x (List.mem_cons_of_mem a hx))

/-- A legal placeholder name for the regex: nonempty, containing neither
`}` nor `:` (a leading `$` is just another name character). -/
def validName (s : String) : Prop := s.data ≠ [] ∧ ∀ c ∈ s.data, c ≠ '}' ∧ c ≠ ':'

instance (s : String) : Decidable (validName s) := by
  unfold validName; infer_instance

/-- A legal inline default for the regex: no `}` character. -/
def validDefault (s : String) : Prop := ∀ c ∈ s.data, c ≠ '}'

instance (s : String) : Decidable (validDefault s) := by
  unfold validDefault; infer_instance

theorem tryMatch_name (name : String) (rest : List Char) (hn : validName name) :
    tryMatch (name.data ++ '}' :: rest) = some (name, "", rest) := by
  obtain ⟨hne, hall⟩ := hn
  have hp : ∀ x ∈ name.data, (!(nameEnd x)) = true := by
    intro x hx
    obtain ⟨h₁, h₂⟩ := hall x hx
    simp [nameEnd, h₁, h₂]
  have hc : ¬ ((!(nameEnd '}')) = true) := by simp [nameEnd]
  rw [tryMatch, takeWhile_append_cons _ _ _ _ hp hc, dropWhile_append_cons _ _ _ _ hp hc]
  simp [List.isEmpty_iff, hne]

theorem tryMatch_name_default (name dflt : String) (rest : List Char)
    (hn : validName name) (hd : validDefault dflt) :
    tryMatch (name.data ++ ':' :: dflt.data ++ '}' :: rest) = some (name, dflt, rest) := by
  obtain ⟨hne, hall⟩ := hn
  have hp : ∀ x ∈ name.data, (!(nameEnd x)) = true := by
    intro x hx
    obtain ⟨h₁, h₂⟩ := hall x hx
    simp [nameEnd, h₁, h₂]
  have hc : ¬ ((!(nameEnd ':')) = true) := by simp [nameEnd]
  have hq : ∀ x ∈ dflt.data, (decide (x ≠ '}')) = true := by
    intro x hx
    simp [hd x hx]
  have hc₂ : ¬ ((decide ('}' ≠ '}')) = true) := by simp
  have hsplit : name.data ++ ':' :: dflt.data ++ '}' :: rest
      = name.data ++ ':' :: (dflt.data ++ '}' :: rest) := by simp
  rw [tryMatch, hsplit, takeWhile_append_cons _ _ _ _ hp hc, dropWhile_append_cons _ _ _ _ hp hc]
  simp only [List.isEmpty_iff, hne, if_false]
  rw [takeWhile_append_cons _ _ _ _ hq hc₂, dropWhile_append_cons _ _ _ _ hq hc₂]
  rfl

theorem substituteVariables_data (gcode : String) (values : List (String × String)) :
    (substituteVariables gcode values).data = scanSubst values gcode.data := rfl

/-- Does a well-formed placeholder occur anywhere in the text?  (Used to
state the resolver's identity behaviour on placeholder-free templates.) -/
def hasPlaceholder : List Char → Bool
  | [] => false
  | c :: rest => (decide (c = '{') && (tryMatch rest).isSome) || hasPlaceholder rest

theorem scanSubst_id (values : List (String × String)) :
    ∀ l, hasPlaceholder l = false → scanSubst values l = l := by
  intro l
  induction l with
  | nil => intro _; rfl
  | cons c rest ih =>
    intro h
    simp only [hasPlaceholder, Bool.or_eq_false_iff, Bool.and_eq_false_iff] at h
    obtain ⟨h₁, h₂⟩ := h
    by_cases hc : c = '{'
    · subst hc
      rcases h₁ with h₁ | h₁
      · simp at h₁
      · have hm : tryMatch rest = none := by
          rcases hm₂ : tryMatch rest with _ | v
          · rfl
          · rw [hm₂] at h₁; simp at h₁
        rw [scanSubst_cons_none values rest hm, ih h₂]
    · rw [scanSubst_cons_ne values c rest hc, ih h₂]

theorem tryMatch_mem_close {l : List Char} {v : String × String × List Char}
    (h : tryMatch l = some v) : '}' ∈ l := by
  rw [tryMatch] at h
  split at h
  · simp at h
  · split at h
    next r₁ heq =>
      have : '}' ∈ l.dropWhile fun c => !(nameEnd c) := by rw [heq]; simp
      exact (List.dropWhile_sublist _).mem this
    next r₁ heq =>
      split at h
      next r₂ heq₂ =>
        have h₂ : '}' ∈ r₁.dropWhile fun c => c ≠ '}' := by rw [heq₂]; simp
        have h₃ : '}' ∈ r₁ := (List.dropWhile_sublist _).mem h₂
        have : '}' ∈ l.dropWhile fun c => !(nameEnd c) := by
          rw [heq]; exact List.mem_cons_of_mem _ h₃
        exact (List.dropWhile_sublist _).mem this
      next => simp at h
    next => simp at h

theorem hasPlaceholder_eq_false_of_no_open {l : List Char} (h : '{' ∉ l) :
    hasPlaceholder l = false := by
  induction l with
  | nil => rfl
  | cons c rest ih =>
    have hc : ¬ c = '{' := fun hc => h (hc ▸ List.mem_cons_self c rest)
    have hrest : '{' ∉ rest := fun hm => h (List.mem_cons_of_mem c hm)
    simp [hasPlaceholder, hc, ih hrest]

theorem hasPlaceholder_eq_false_of_no_close {l : List Char} (h : '}' ∉ l) :
    hasPlaceholder l = false := by
  induction l with
  | nil => rfl
  | cons c rest ih =>
    have hrest : '}' ∉ rest := fun hm => h (List.mem_cons_of_mem c hm)
    have hm : tryMatch rest = none := by
      rcases hmm : tryMatch rest with _ | v
      · rfl
      · exact absurd (tryMatch_mem_close hmm) hrest
    simp [hasPlaceholder, hm, ih hrest]

/-- **C3** — the resolver replaces a placeholder occurrence `{name}` or
`{name:default}` by the value bound to the full name (including any `$`
sigil) in the values mapping when present, by the default text otherwise,
and by the empty string when neither exists; a name without the `$` sigil
never picks up a `$`-prefixed binding (resolving `{frame_height}` against
a mapping holding only `$frame_height` yields the empty string). -/
theorem c3_resolver_resolution (values : List (String × String)) (name dflt rest : String)
    (hn : validName name) (hd : validDefault dflt) :
    substituteVariables ("\x7b" ++ name ++ "\x7d" ++ rest) values
        = (dlookup name values).getD "" ++ substituteVariables rest values
      ∧ substituteVariables ("\x7b" ++ name ++ ":" ++ dflt ++ "\x7d" ++ rest) values
        = (dlookup name values).getD dflt ++ substituteVariables rest values
      ∧ substituteVariables "{frame_height}" [("$frame_height", "2100")] = "" := by
  refine ⟨?_, ?_, by decide⟩
  · apply String.ext
    have hdata : ("\x7b" ++ name ++ "\x7d" ++ rest).data = '{' :: (name.data ++ '}' :: rest.data) := by
      simp [String.data_append]
    rw [substituteVariables_data, hdata,
      scanSubst_cons_some values _ name "" rest.data (tryMatch_name name rest.data hn)]
    simp [substituteVariables, String.data_append, scanSubst]
  · apply String.ext
    have hdata : ("\x7b" ++ name ++ ":" ++ dflt ++ "\x7d" ++ rest).data
        = '{' :: (name.data ++ ':' :: dflt.data ++ '}' :: rest.data) := by
      simp [String.data_append]
    rw [substituteVariables_data, hdata,
      scanSubst_cons_some values _ name dflt rest.data
        (tryMatch_name_default name dflt rest.data hn hd)]
    simp [substituteVariables, String.data_append, scanSubst]

/-- Witness for C3 at concrete inputs. -/
theorem c3_resolver_resolution_witness :
    substituteVariables ("\x7b" ++ "a" ++ "\x7d" ++ "X") [("a", "1")]
        = (dlookup "a" [("a", "1")]).getD "" ++ substituteVariables "X" [("a", "1")]
      ∧ substituteVariables ("\x7b" ++ "a" ++ ":" ++ "2" ++ "\x7d" ++ "X") [("a", "1")]
        = (dlookup "a" [("a", "1")]).getD "2" ++ substituteVariables "X" [("a", "1")]
      ∧ substituteVariables "{frame_height}" [("$frame_height", "2100")] = "" :=
  c3_resolver_resolution [("a", "1")] "a" "2" "X" (by decide) (by decide)

/-- **C4** — the resolver is total and leaves any template without a
well-formed placeholder unchanged; in particular templates with no `{`
at all and fragments with an unmatched `{` (no closing `}`) are returned
as literal text. -/
theorem c4_resolver_total (t : String) (values : List (String × String)) :
    (hasPlaceholder t.data = false → substituteVariables t values = t)
      ∧ ('{' ∉ t.data → substituteVariables t values = t)
      ∧ ('}' ∉ t.data → substituteVariables t values = t) := by
  refine ⟨?_, ?_, ?_⟩
  · intro h
    apply String.ext
    rw [substituteVariables_data, scanSubst_id values t.data h]
  · intro h
    apply String.ext
    rw [substituteVariables_data, scanSubst_id values t.data
      (hasPlaceholder_eq_false_of_no_open h)]
  · intro h
    apply String.ext
    rw [substituteVariables_data, scanSubst_id values t.data
      (hasPlaceholder_eq_false_of_no_close h)]

/-- Witness for C4: an unmatched `\x7b` fragment (no closing brace)
comes back unchanged. -/
theorem c4_resolver_total_witness :
    substituteVariables "G1 X(open \x7b a" [("a", "1")] = "G1 X(open \x7b a" :=
  (c4_resolver_total "G1 X(open \x7b a" [("a", "1")]).2.2 (by decide)

/-! ## Generator state (`GCodeGenerator.__init__` and friends)

`self.generated_files` holds 6 slots (`left`/`right` × `frame`/`lock`/
`hinge`), each a dict with keys `auto`, `manual`, `is_manual`.  Profiles
and frame configuration are Python dicts; a `none` below stands for the
falsy cases (`None` or the empty dict) tested by `_has_required_data`.
Only the dict keys the generator reads are modelled. -/

inductive Side where
  | left
  | right
deriving DecidableEq, Fintype

inductive FType where
  | frame
  | lock
  | hinge
deriving DecidableEq, Fintype

/-- One generated-output slot (`{'auto': …, 'manual': …, 'is_manual': …}`). -/
structure Slot where
  auto : String
  manual : String
  is_manual : Bool
deriving DecidableEq

/-- `self.generated_files`: the six slots. -/
structure GenFiles where
  left_frame : Slot
  left_lock : Slot
  left_hinge : Slot
  right_frame : Slot
  right_lock : Slot
  right_hinge : Slot
deriving DecidableEq

def GenFiles.get (f : GenFiles) : Side → FType → Slot
  | .left, .frame => f.left_frame
  | .left, .lock => f.left_lock
  | .left, .hinge => f.left_hinge
  | .right, .frame => f.right_frame
  | .right, .lock => f.right_lock
  | .right, .hinge => f.right_hinge

def GenFiles.set (f : GenFiles) (side : Side) (ftype : FType) (s : Slot) : GenFiles :=
  match side, ftype with
  | .left, .frame => { f with left_frame := s }
  | .left, .lock => { f with left_lock := s }
  | .left, .hinge => { f with left_hinge := s }
  | .right, .frame => { f with right_frame := s }
  | .right, .lock => { f with right_lock := s }
  | .right, .hinge => { f with right_hinge := s }

/-- A type entry (`types_data[category][type_name]`); only the `gcode`
key is read (`type_data.get('gcode', '')`: a missing key is the empty
string). -/
structure TypeData where
  gcode : String
deriving DecidableEq

/-- A profile dict; `type` models the `'type'` key (`none` when the key
is absent), `l_variables` and `custom_variables` the two variable dicts
(`profile.get(…, {})`). -/
structure Profile where
  type : Option String
  l_variables : List (String × PyValue)
  custom_variables : List (String × PyValue)
deriving DecidableEq

/-- The parts of the frame-configuration dict the generator reads:
`profile_data.hinge.gcode_left` / `gcode_right` (via nested `get`s with
empty-string defaults) and `dollar_variables`. -/
structure FrameConfig where
  gcode_left : String
  gcode_right : String
  dollar_variables : List (String × PyValue)
deriving DecidableEq

/-- The `GCodeGenerator` object state. -/
structure GenState where
  frame_config : Option FrameConfig
  hinge : Option Profile
  lock : Option Profile
  types_hinge : List (String × TypeData)
  types_lock : List (String × TypeData)
  files : GenFiles
deriving DecidableEq

def emptySlot : Slot := { auto := "", manual := "", is_manual := false }

/-- The state right after `__init__` (before any disk data is loaded). -/
def initState : GenState :=
  { frame_config := none, hinge := none, lock := none,
    types_hinge := [], types_lock := [],
    files := ⟨emptySlot, emptySlot, emptySlot, emptySlot, emptySlot, emptySlot⟩ }

/-- `GCodeGenerator._has_required_data`. -/
def hasRequiredData (st : GenState) : Bool :=
  st.frame_config.isSome && st.hinge.isSome && st.lock.isSome

/-- `GCodeGenerator._get_profile_gcode(profile)`. -/
def getProfileGcode (st : GenState) (profile : Option Profile) : String :=
  match profile with
  | none => ""
  | some p =>
    match p.type with
    | none => ""
    | some typeName =>
      if st.hinge = some p then ((dlookup typeName st.types_hinge).map TypeData.gcode).getD ""
      else if st.lock = some p then ((dlookup typeName st.types_lock).map TypeData.gcode).getD ""
      else ""

/-- `GCodeGenerator._prepare_substitution_values(side, file_type)`:
L-variables then custom variables of the relevant profile, each
stringified and assigned into a fresh dict. -/
def prepareSubstitutionValues (st : GenState) (ftype : FType) : List (String × String) :=
  let profile := match ftype with
    | .lock => st.lock
    | .hinge => st.hinge
    | .frame => none
  match profile with
  | none => []
  | some p =>
    let v₁ := p.l_variables.foldl (fun acc kv => dictInsert kv.1 kv.2.toStr acc) []
    p.custom_variables.foldl (fun acc kv => dictInsert kv.1 kv.2.toStr acc) v₁

/-- The full substitution dict built inside `_generate_file` (lines
196–203): the prepared profile values with every dollar variable added
under a `$`-prefixed key. -/
def substitutionMapping (st : GenState) (ftype : FType) : List (String × String) :=
  let dollarValues := match st.frame_config with
    | none => []
    | some cfg => cfg.dollar_variables
  dollarValues.foldl (fun acc kv => dictInsert ("$" ++ kv.1) kv.2.toStr acc)
    (prepareSubstitutionValues st ftype)

/-- `GCodeGenerator._generate_file(side, file_type)`. -/
def generateFile (st : GenState) (side : Side) (ftype : FType) : String :=
  let baseGcode : String := match ftype with
    | .frame =>
      match st.frame_config with
      | none => ""
      | some cfg => match side with
        | .left => cfg.gcode_left
        | .right => cfg.gcode_right
    | .lock => getProfileGcode st st.lock
    | .hinge => getProfileGcode st st.hinge
  if baseGcode = "" then ""
  else substituteVariables baseGcode (substitutionMapping st ftype)

/-- One slot update of the `regenerate_auto` loop body: `auto` is always
replaced; `manual` only when `is_manual` is false. -/
def regenSlot (st : GenState) (side : Side) (ftype : FType) : Slot :=
  let autoContent := generateFile st side ftype
  let s := st.files.get side ftype
  { auto := autoContent,
    manual := if s.is_manual then s.manual else autoContent,
    is_manual := s.is_manual }

/-- `GCodeGenerator.regenerate_auto` (the generation of a slot reads only
the configuration and profiles, never `generated_files`, so the loop is a
simultaneous update of the six slots). -/
def regenerateAuto (st : GenState) : GenState :=
  if hasRequiredData st then
    { st with files :=
        ⟨regenSlot st .left .frame, regenSlot st .left .lock, regenSlot st .left .hinge,
         regenSlot st .right .frame, regenSlot st .right .lock, regenSlot st .right .hinge⟩ }
  else st

/-- One slot update of the `regenerate_all` loop body. -/
def regenAllSlot (st : GenState) (side : Side) (ftype : FType) : Slot :=
  let autoContent := generateFile st side ftype
  { auto := autoContent, manual := autoContent, is_manual := false }

/-- `GCodeGenerator.regenerate_all`. -/
def regenerateAll (st : GenState) : GenState :=
  if hasRequiredData st then
    { st with files :=
        ⟨regenAllSlot st .left .frame, regenAllSlot st .left .lock, regenAllSlot st .left .hinge,
         regenAllSlot st .right .frame, regenAllSlot st .right .lock,
         regenAllSlot st .right .hinge⟩ }
  else st

/-- `GCodeGenerator.update_file_content(side, file_type, new_content)`
(the `side in …` / `file_type in …` guards always hold for the six valid
slots modelled here). -/
def updateFileContent (st : GenState) (side : Side) (ftype : FType) (newContent : String) :
    GenState :=
  let s := st.files.get side ftype
  { st with files := st.files.set side ftype { s with manual := newContent, is_manual := true } }

/-- `GCodeGenerator.get_file_content(side, file_type)`. -/
def getFileContent (st : GenState) (side : Side) (ftype : FType) : String :=
  (st.files.get side ftype).manual

/-- `GCodeGenerator.reset_file_to_auto(side, file_type)`. -/
def resetFileToAuto (st : GenState) (side : Side) (ftype : FType) : GenState :=
  let s := st.files.get side ftype
  let s₂ : Slot := { s with manual := s.auto, is_manual := false }
  { st with files := st.files.set side ftype s₂ }

theorem GenFiles.get_set_same (f : GenFiles) (side : Side) (ftype : FType) (s : Slot) :
    (f.set side ftype s).get side ftype = s := by
  cases side <;> cases ftype <;> rfl

theorem regenerateAuto_files_get (st : GenState) (side : Side) (ftype : FType)
    (h : hasRequiredData st = true) :
    (regenerateAuto st).files.get side ftype = regenSlot st side ftype := by
  cases side <;> cases ftype <;> simp [regenerateAuto, h, GenFiles.get]

theorem regenerateAll_files_get (st : GenState) (side : Side) (ftype : FType)
    (h : hasRequiredData st = true) :
    (regenerateAll st).files.get side ftype = regenAllSlot st side ftype := by
  cases side <;> cases ftype <;> simp [regenerateAll, h, GenFiles.get]

/-- **C1** — when all required data is present, `regenerate_auto` sets
every slot's `auto` to the newly generated text; it propagates that text
to `manual` exactly when `is_manual` is false, and leaves `manual`
untouched when `is_manual` is true. -/
theorem c1_regenerate_preserves_manual (st : GenState) (side : Side) (ftype : FType)
    (h : hasRequiredData st = true) :
    ((regenerateAuto st).files.get side ftype).auto = generateFile st side ftype
      ∧ ((st.files.get side ftype).is_manual = false →
        ((regenerateAuto st).files.get side ftype).manual = generateFile st side ftype)
      ∧ ((st.files.get side ftype).is_manual = true →
        ((regenerateAuto st).files.get side ftype).manual
          = (st.files.get side ftype).manual) := by
  rw [regenerateAuto_files_get st side ftype h]
  refine ⟨rfl, ?_, ?_⟩
  · intro hm; simp [regenSlot, hm]
  · intro hm; simp [regenSlot, hm]

/-- Concrete data used by several witnesses. -/
def sampleFrameConfig : FrameConfig :=
  { gcode_left := "G0 L", gcode_right := "G0 R",
    dollar_variables := [("frame_height", .n 2100)] }

def sampleHingeProfile : Profile :=
  { type := some "H", l_variables := [("L1", .n 5)], custom_variables := [] }

def sampleLockProfile : Profile :=
  { type := some "K", l_variables := [], custom_variables := [("depth", .s "3")] }

/-- A concrete state with the required data present and one manually
locked slot, used by the witnesses. -/
def sampleState : GenState :=
  { frame_config := some sampleFrameConfig,
    hinge := some sampleHingeProfile,
    lock := some sampleLockProfile,
    types_hinge := [("H", { gcode := "HG {L1}" })],
    types_lock := [("K", { gcode := "KG {depth}" })],
    files := ⟨emptySlot, emptySlot, emptySlot, emptySlot,
      { auto := "A1", manual := "X", is_manual := true }, emptySlot⟩ }

/-- Witness for C1 on `sampleState` (a locked slot keeps its manual
text, an unlocked slot receives the generated text). -/
theorem c1_regenerate_preserves_manual_witness :
    ((regenerateAuto sampleState).files.get .right .lock).auto
        = generateFile sampleState .right .lock
      ∧ ((sampleState.files.get .right .lock).is_manual = false →
        ((regenerateAuto sampleState).files.get .right .lock).manual
          = generateFile sampleState .right .lock)
      ∧ ((sampleState.files.get .right .lock).is_manual = true →
        ((regenerateAuto sampleState).files.get .right .lock).manual
          = (sampleState.files.get .right .lock).manual) :=
  c1_regenerate_preserves_manual sampleState .right .lock (by decide)

/-- **C2** — `update_file_content` stores the new text in `manual` and
sets `is_manual` unconditionally (also when the text equals `auto`),
leaving `auto` unchanged; a subsequent `reset_file_to_auto` copies `auto`
back into `manual` and clears `is_manual`. -/
theorem c2_user_edit_and_reset (st : GenState) (side : Side) (ftype : FType) (x : String) :
    ((updateFileContent st side ftype x).files.get side ftype).manual = x
      ∧ ((updateFileContent st side ftype x).files.get side ftype).is_manual = true
      ∧ ((updateFileContent st side ftype x).files.get side ftype).auto
        = (st.files.get side ftype).auto
      ∧ ((resetFileToAuto (updateFileContent st side ftype x) side ftype).files.get
          side ftype).manual = (st.files.get side ftype).auto
      ∧ ((resetFileToAuto (updateFileContent st side ftype x) side ftype).files.get
          side ftype).is_manual = false := by
  refine ⟨?_, ?_, ?_, ?_, ?_⟩ <;>
    simp [updateFileContent, resetFileToAuto, GenFiles.get_set_same]

/-- **C9** — with any required datum missing (empty frame configuration,
or no hinge profile, or no lock profile), `regenerate_auto` leaves every
slot byte-for-byte unchanged. -/
theorem c9_regenerate_noop (st : GenState)
    (h : st.frame_config = none ∨ st.hinge = none ∨ st.lock = none) :
    regenerateAuto st = st := by
  have hreq : hasRequiredData st = false := by
    rcases h with h | h | h <;> simp [hasRequiredData, h]
  simp [regenerateAuto, hreq]

/-- Witness for C9 at the freshly initialized state. -/
theorem c9_regenerate_noop_witness : regenerateAuto initState = initState :=
  c9_regenerate_noop initState (Or.inl rfl)

/-- The invariant of claim C10: an unlocked slot always shows exactly its
auto-generated content. -/
def unlockedShowsAuto (f : GenFiles) : Prop :=
  ∀ side ftype, (f.get side ftype).is_manual = false →
    (f.get side ftype).manual = (f.get side ftype).auto

instance (f : GenFiles) : Decidable (unlockedShowsAuto f) := by
  unfold unlockedShowsAuto; infer_instance

/-- **C10** — "`is_manual = false → manual = auto` for every slot" holds
initially and is preserved by `regenerate_auto`, `regenerate_all`,
`update_file_content` and `reset_file_to_auto`. -/
theorem c10_unlocked_invariant :
    unlockedShowsAuto initState.files
      ∧ ∀ st side ftype text, unlockedShowsAuto st.files →
        unlockedShowsAuto (regenerateAuto st).files
          ∧ unlockedShowsAuto (regenerateAll st).files
          ∧ unlockedShowsAuto (updateFileContent st side ftype text).files
          ∧ unlockedShowsAuto (resetFileToAuto st side ftype).files := by
  constructor
  · decide
  · intro st side ftype text hinv
    refine ⟨?_, ?_, ?_, ?_⟩
    · intro s f hm
      by_cases hreq : hasRequiredData st = true
      · rw [regenerateAuto_files_get st s f hreq] at hm ⊢
        simp only [regenSlot] at hm ⊢
        simp [hm]
      · have : regenerateAuto st = st := by
          simp [regenerateAuto, hreq]
        rw [this] at hm ⊢
        exact hinv s f hm
    · intro s f hm
      by_cases hreq : hasRequiredData st = true
      · rw [regenerateAll_files_get st s f hreq]
        rfl
      · have : regenerateAll st = st := by
          simp [regenerateAll, hreq]
        rw [this] at hm ⊢
        exact hinv s f hm
    · intro s f hm
      by_cases hs : s = side ∧ f = ftype
      · obtain ⟨h₁, h₂⟩ := hs
        subst h₁; subst h₂
        simp only [updateFileContent, GenFiles.get_set_same] at hm
        simp at hm
      · have hne : (updateFileContent st side ftype text).files.get s f = st.files.get s f := by
          simp only [updateFileContent]
          cases side <;> cases ftype <;> cases s <;> cases f <;>
            first
              | (exfalso; exact hs ⟨rfl, rfl⟩)
              | rfl
        rw [hne] at hm ⊢
        exact hinv s f hm
    · intro s f hm
      by_cases hs : s = side ∧ f = ftype
      · obtain ⟨h₁, h₂⟩ := hs
        subst h₁; subst h₂
        simp only [resetFileToAuto, GenFiles.get_set_same]
      · have hne : (resetFileToAuto st side ftype).files.get s f = st.files.get s f := by
          simp only [resetFileToAuto]
          cases side <;> cases ftype <;> cases s <;> cases f <;>
            first
              | (exfalso; exact hs ⟨rfl, rfl⟩)
              | rfl
        rw [hne] at hm ⊢
        exact hinv s f hm

/-- Witness for C10, instantiating the preservation part at a concrete
state (the initial one) and concrete slot and text. -/
theorem c10_unlocked_invariant_witness :
    unlockedShowsAuto (regenerateAuto initState).files
      ∧ unlockedShowsAuto (regenerateAll initState).files
      ∧ unlockedShowsAuto (updateFileContent initState .left .frame "edit").files
      ∧ unlockedShowsAuto (resetFileToAuto initState .left .frame).files :=
  c10_unlocked_invariant.2 initState .left .frame "edit" (by decide)

/-- **C8** — `_get_profile_gcode` on the selected hinge (resp. lock)
profile: when the profile's type name is missing from the loaded type
mapping the result is the empty string (and, the function being total, no
exception); when the type name is present the result is that type's
`gcode` text.  (The `elif` branch for the lock profile is only reached
when the dict is not equal to the selected hinge profile.) -/
theorem c8_dangling_type (st : GenState) (p : Profile) (tn : String) (hp : p.type = some tn) :
    (st.hinge = some p →
      (dlookup tn st.types_hinge = none → getProfileGcode st (some p) = "")
        ∧ ∀ td, dlookup tn st.types_hinge = some td → getProfileGcode st (some p) = td.gcode)
      ∧ (st.lock = some p → st.hinge ≠ some p →
        (dlookup tn st.types_lock = none → getProfileGcode st (some p) = "")
          ∧ ∀ td, dlookup tn st.types_lock = some td → getProfileGcode st (some p) = td.gcode) := by
  constructor
  · intro hh
    constructor
    · intro hnone
      simp [getProfileGcode, hp, hh.symm, hnone]
    · intro td htd
      simp [getProfileGcode, hp, hh.symm, htd]
  · intro hl hh
    have hh₂ : ¬ st.hinge = some p := hh
    constructor
    · intro hnone
      simp only [getProfileGcode, hp]
      rw [if_neg hh₂, if_pos hl]
      simp [hnone]
    · intro td htd
      simp only [getProfileGcode, hp]
      rw [if_neg hh₂, if_pos hl]
      simp [htd]

/-- A state whose hinge profile references a deleted type and whose lock
profile references an existing one. -/
def danglingState : GenState :=
  { frame_config := none,
    hinge := some { type := some "Gone", l_variables := [], custom_variables := [] },
    lock := some { type := some "K", l_variables := [], custom_variables := [] },
    types_hinge := [],
    types_lock := [("K", { gcode := "KG" })],
    files := initState.files }

/-- Witness for C8: dangling hinge type gives the empty string, present
lock type gives its gcode. -/
theorem c8_dangling_type_witness :
    getProfileGcode danglingState
        (some { type := some "Gone", l_variables := [], custom_variables := [] }) = ""
      ∧ getProfileGcode danglingState
        (some { type := some "K", l_variables := [], custom_variables := [] }) = "KG" :=
  ⟨((c8_dangling_type danglingState
        { type := some "Gone", l_variables := [], custom_variables := [] } "Gone" rfl).1
      rfl).1 rfl,
    ((c8_dangling_type danglingState
        { type := some "K", l_variables := [], custom_variables := [] } "K" rfl).2
      rfl (by decide)).2 { gcode := "KG" } rfl⟩

/-! ## Execution-order derivation (`FrameTab.get_configuration`)

Lines 712–723 of `src/ui/frame/frame_tab.py` build `order_map` by
enumerating `self.execution_order` (`order_map[item_id] = idx + 1`) and
then read `lock_order` and `hinge1..4_order` out of it with
`order_map.get(key, 0)`.  The active flags built a few lines earlier are
not consulted by this computation. -/

/-- The `enumerate` loop body: insert each item with its 1-based index. -/
def buildOrderMap : Nat → List String → List (String × Nat) → List (String × Nat)
  | _, [], m => m
  | i, x :: rest, m => buildOrderMap (i + 1) rest (dictInsert x (i + 1) m)

def orderMap (executionOrder : List String) : List (String × Nat) :=
  buildOrderMap 0 executionOrder []

/-- `order_map.get(component, 0)`. -/
def componentOrder (executionOrder : List String) (component : String) : Nat :=
  (dlookup component (orderMap executionOrder)).getD 0

/-- The five `_order` entries added to `dollar_vars`. -/
def orderDollarVars (executionOrder : List String) : List (String × Nat) :=
  [("lock_order", componentOrder executionOrder "lock"),
   ("hinge1_order", componentOrder executionOrder "hinge1"),
   ("hinge2_order", componentOrder executionOrder "hinge2"),
   ("hinge3_order", componentOrder executionOrder "hinge3"),
   ("hinge4_order", componentOrder executionOrder "hinge4")]

/-- 1-based position of the last occurrence of `c` in the list (`none`
when absent); specifies what the dict-overwrite loop computes. -/
def lastPos : List String → String → Option Nat
  | [], _ => none
  | x :: rest, c =>
    match lastPos rest c with
    | some v => some (v + 1)
    | none => if x = c then some 1 else none

/-- Modelled from the claim: an `_order` value is the 1-based position in
the execution-order list when the component is active and listed, and 0
when it is absent from the list or marked inactive. -/
def claimedOrder (active : Bool) (executionOrder : List String) (component : String) : Nat :=
  if active then
    if component ∈ executionOrder then executionOrder.indexOf component + 1 else 0
  else 0

theorem dlookup_dictInsert {α : Type} (k k₂ : String) (v : α) (d : List (String × α)) :
    dlookup k₂ (dictInsert k v d) = if k = k₂ then some v else dlookup k₂ d := by
  induction d with
  | nil => simp [dictInsert, dlookup]
  | cons p rest ih =>
    obtain ⟨k₃, v₃⟩ := p
    simp only [dictInsert]
    by_cases h₁ : k₃ = k
    · subst h₁
      simp only [if_pos rfl, dlookup]
      by_cases h₂ : k₃ = k₂ <;> simp [h₂]
    · simp only [if_neg h₁, dlookup, ih]
      by_cases h₂ : k₃ = k₂
      · subst h₂
        have h₃ : ¬ k = k₃ := fun hh => h₁ hh.symm
        simp [h₃]
      · simp [h₂]

theorem dlookup_buildOrderMap (c : String) :
    ∀ (executionOrder : List String) (i : Nat) (m : List (String × Nat)),
      dlookup c (buildOrderMap i executionOrder m)
        = match lastPos executionOrder c with
          | some p => some (p + i)
          | none => dlookup c m := by
  intro eo
  induction eo with
  | nil => intro i m; rfl
  | cons x rest ih =>
    intro i m
    show dlookup c (buildOrderMap (i + 1) rest (dictInsert x (i + 1) m)) = _
    rw [ih (i + 1) (dictInsert x (i + 1) m), dlookup_dictInsert]
    show _ = (match (match lastPos rest c with
      | some v => some (v + 1)
      | none => if x = c then some 1 else none) with
      | some p => some (p + i)
      | none => dlookup c m)
    rcases h : lastPos rest c with _ | p
    · by_cases hx : x = c <;> simp [hx, Nat.add_comm]
    · simp only
      exact congrArg some (by omega)

theorem componentOrder_eq_lastPos (executionOrder : List String) (component : String) :
    componentOrder executionOrder component
      = (lastPos executionOrder component).getD 0 := by
  unfold componentOrder orderMap
  rw [dlookup_buildOrderMap]
  rcases h : lastPos executionOrder component with _ | p
  · rfl
  · simp

theorem lastPos_eq_none_of_not_mem {executionOrder : List String} {component : String}
    (h : component ∉ executionOrder) : lastPos executionOrder component = none := by
  induction executionOrder with
  | nil => rfl
  | cons x rest ih =>
    have hx : ¬ x = component := fun hh => h (hh ▸ List.mem_cons_self x rest)
    have hr : component ∉ rest := fun hm => h (List.mem_cons_of_mem x hm)
    simp [lastPos, ih hr, hx]

/-- **C5 counterexample** — with `execution_order = ["lock"]` and the
lock marked inactive, the code's `lock_order` is 1 (its list position),
while the claim demands 0 for a component marked inactive. -/
theorem c5_counterexample :
    dlookup "lock_order" (orderDollarVars ["lock"]) = some 1
      ∧ claimedOrder false ["lock"] "lock" = 0
      ∧ componentOrder ["lock"] "lock" ≠ claimedOrder false ["lock"] "lock" := by
  refine ⟨?_, rfl, ?_⟩ <;> decide

/-- **C5 (amended)** — each `_order` entry of the recomputed
dollar-variable mapping equals the 1-based position of the component's
last occurrence in the execution-order list, irrespective of the active
flags, and 0 when the component is absent from the list. -/
theorem c5_order_from_list (executionOrder : List String) (component : String)
    (h : component ∈ ["lock", "hinge1", "hinge2", "hinge3", "hinge4"]) :
    dlookup (component ++ "_order") (orderDollarVars executionOrder)
        = some ((lastPos executionOrder component).getD 0)
      ∧ (component ∉ executionOrder →
        dlookup (component ++ "_order") (orderDollarVars executionOrder) = some 0) := by
  have hmain : dlookup (component ++ "_order") (orderDollarVars executionOrder)
      = some (componentOrder executionOrder component) := by
    have h₂ : component = "lock" ∨ component = "hinge1" ∨ component = "hinge2"
        ∨ component = "hinge3" ∨ component = "hinge4" := by simpa using h
    rcases h₂ with h₂ | h₂ | h₂ | h₂ | h₂ <;> subst h₂ <;>
      simp [orderDollarVars, dlookup]
  constructor
  · rw [hmain, componentOrder_eq_lastPos]
  · intro habs
    rw [hmain, componentOrder_eq_lastPos, lastPos_eq_none_of_not_mem habs]
    rfl

/-- Witness for C5 (amended), at the spec's own test vector
`execution_order = ["hinge2", "lock", "hinge1"]`. -/
theorem c5_order_from_list_witness :
    dlookup ("lock" ++ "_order") (orderDollarVars ["hinge2", "lock", "hinge1"])
        = some ((lastPos ["hinge2", "lock", "hinge1"] "lock").getD 0)
      ∧ ("lock" ∉ (["hinge2", "lock", "hinge1"] : List String) →
        dlookup ("lock" ++ "_order") (orderDollarVars ["hinge2", "lock", "hinge1"])
          = some 0) :=
  c5_order_from_list ["hinge2", "lock", "hinge1"] "lock" (by decide)

/-! ## Substitution value set (`_generate_file` + `_prepare_substitution_values`) -/

theorem dlookup_append {α : Type} (k : String) (a b : List (String × α)) :
    dlookup k (a ++ b) = match dlookup k a with
      | some v => some v
      | none => dlookup k b := by
  induction a with
  | nil => rfl
  | cons p rest ih =>
    obtain ⟨k₂, v₂⟩ := p
    by_cases h : k₂ = k
    · simp [dlookup, h]
    · simp [dlookup, h, ih]

theorem dlookup_foldl_insert {α : Type} (k : String) :
    ∀ (pairs : List (String × α)) (d : List (String × α)),
      dlookup k (pairs.foldl (fun acc kv => dictInsert kv.1 kv.2 acc) d)
        = match dlookup k pairs.reverse with
          | some v => some v
          | none => dlookup k d := by
  intro pairs
  induction pairs with
  | nil => intro d; rfl
  | cons p rest ih =>
    intro d
    show dlookup k (rest.foldl (fun acc kv => dictInsert kv.1 kv.2 acc) (dictInsert p.1 p.2 d))
      = _
    rw [ih (dictInsert p.1 p.2 d), List.reverse_cons, dlookup_append]
    rcases h : dlookup k rest.reverse with _ | v
    · simp only [dlookup_dictInsert]
      by_cases hk : p.1 = k <;> simp [dlookup, hk]
    · rfl

theorem dlookup_eq_none_of_not_mem {α : Type} {k : String} :
    ∀ {pairs : List (String × α)}, k ∉ pairs.map Prod.fst → dlookup k pairs = none := by
  intro pairs
  induction pairs with
  | nil => intro _; rfl
  | cons p rest ih =>
    intro h
    have h₁ : ¬ p.1 = k := by
      intro hh
      exact h (by simp [hh.symm])
    have h₂ : k ∉ rest.map Prod.fst := by
      intro hm
      exact h (by simp [List.mem_map] at hm ⊢; tauto)
    obtain ⟨k₂, v₂⟩ := p
    simp only [dlookup]
    rw [if_neg h₁, ih h₂]

theorem dlookup_reverse_of_nodup {α : Type} (k : String) :
    ∀ {pairs : List (String × α)}, (pairs.map Prod.fst).Nodup →
      dlookup k pairs.reverse = dlookup k pairs := by
  intro pairs
  induction pairs with
  | nil => intro _; rfl
  | cons p rest ih =>
    intro hnd
    rw [List.map_cons, List.nodup_cons] at hnd
    obtain ⟨hhead, htail⟩ := hnd
    rw [List.reverse_cons, dlookup_append, ih htail]
    obtain ⟨k₂, v₂⟩ := p
    by_cases hk : k₂ = k
    · subst hk
      have : dlookup k₂ rest = none :=
        dlookup_eq_none_of_not_mem (by simpa using hhead)
      simp [this, dlookup]
    · rcases h : dlookup k rest with _ | v <;> simp [dlookup, hk, h]

theorem foldl_insert_toStr :
    ∀ (pairs : List (String × PyValue)) (d : List (String × String)),
      pairs.foldl (fun acc kv => dictInsert kv.1 kv.2.toStr acc) d
        = (pairs.map fun kv => (kv.1, kv.2.toStr)).foldl
            (fun acc kv => dictInsert kv.1 kv.2 acc) d := by
  intro pairs
  induction pairs with
  | nil => intro d; rfl
  | cons p rest ih =>
    intro d
    show rest.foldl (fun acc kv => dictInsert kv.1 kv.2.toStr acc)
        (dictInsert p.1 p.2.toStr d) = _
    rw [ih (dictInsert p.1 p.2.toStr d)]
    rfl

theorem foldl_insert_dollar :
    ∀ (pairs : List (String × PyValue)) (d : List (String × String)),
      pairs.foldl (fun acc kv => dictInsert ("$" ++ kv.1) kv.2.toStr acc) d
        = (pairs.map fun kv => ("$" ++ kv.1, kv.2.toStr)).foldl
            (fun acc kv => dictInsert kv.1 kv.2 acc) d := by
  intro pairs
  induction pairs with
  | nil => intro d; rfl
  | cons p rest ih =>
    intro d
    show rest.foldl (fun acc kv => dictInsert ("$" ++ kv.1) kv.2.toStr acc)
        (dictInsert ("$" ++ p.1) p.2.toStr d) = _
    rw [ih (dictInsert ("$" ++ p.1) p.2.toStr d)]
    rfl

/-- Modelled from the spec sentence "Substitution value set per
generation = Profile's `l_variables` ∪ Profile's `custom_variables` ∪
(Dollar-Variable Namespace, each key prefixed with `$`)": a lookup that
tries the `$`-prefixed dollar namespace, then the custom variables, then
the L-variables (later namespaces shadow earlier ones, as successive
dict updates do), every value stringified. -/
def specUnionLookup (p : Profile) (dollar : List (String × PyValue)) (k : String) :
    Option String :=
  match dlookup k (dollar.map fun kv => ("$" ++ kv.1, kv.2.toStr)) with
  | some v => some v
  | none =>
    match dlookup k (p.custom_variables.map fun kv => (kv.1, kv.2.toStr)) with
    | some v => some v
    | none => dlookup k (p.l_variables.map fun kv => (kv.1, kv.2.toStr))

/-- **C6** — for a lock or hinge slot with its profile selected, the
substitution dict handed to the resolver realizes exactly the union of
the profile's L-variables, its custom variables and the `$`-prefixed
dollar namespace (key-uniqueness of the source Python dicts is reflected
by the `Nodup` hypotheses). -/
theorem c6_substitution_union (st : GenState) (cfg : FrameConfig) (p : Profile) (ftype : FType)
    (hcfg : st.frame_config = some cfg)
    (hp : (ftype = .lock ∧ st.lock = some p) ∨ (ftype = .hinge ∧ st.hinge = some p))
    (hl : (p.l_variables.map Prod.fst).Nodup)
    (hc : (p.custom_variables.map Prod.fst).Nodup)
    (hd : (cfg.dollar_variables.map fun kv => "$" ++ kv.1).Nodup) :
    ∀ k, dlookup k (substitutionMapping st ftype)
      = specUnionLookup p cfg.dollar_variables k := by
  intro k
  have hprep : prepareSubstitutionValues st ftype
      = p.custom_variables.foldl (fun acc kv => dictInsert kv.1 kv.2.toStr acc)
        (p.l_variables.foldl (fun acc kv => dictInsert kv.1 kv.2.toStr acc) []) := by
    rcases hp with ⟨hf, hsel⟩ | ⟨hf, hsel⟩ <;> subst hf <;>
      simp [prepareSubstitutionValues, hsel]
  simp only [substitutionMapping, hcfg, hprep]
  rw [foldl_insert_dollar, foldl_insert_toStr, foldl_insert_toStr]
  rw [dlookup_foldl_insert, dlookup_foldl_insert, dlookup_foldl_insert]
  rw [dlookup_reverse_of_nodup k (by simpa [List.map_map, Function.comp] using hd),
    dlookup_reverse_of_nodup k (by simpa [List.map_map, Function.comp] using hc),
    dlookup_reverse_of_nodup k (by simpa [List.map_map, Function.comp] using hl)]
  unfold specUnionLookup
  cases hA : dlookup k (cfg.dollar_variables.map fun kv => ("$" ++ kv.1, kv.2.toStr)) with
  | some v => rfl
  | none =>
    cases hB : dlookup k (p.custom_variables.map fun kv => (kv.1, kv.2.toStr)) with
    | some v => rfl
    | none =>
      cases hC : dlookup k (p.l_variables.map fun kv => (kv.1, kv.2.toStr)) with
      | some v => rfl
      | none => rfl

/-- Witness for C6 on `sampleState`'s lock slot: the custom variable
`depth` and the dollar variable `$frame_height` both resolve through the
constructed dict exactly as the three-namespace union prescribes. -/
theorem c6_substitution_union_witness :
    dlookup "depth" (substitutionMapping sampleState .lock)
        = specUnionLookup sampleLockProfile sampleFrameConfig.dollar_variables "depth"
      ∧ dlookup "$frame_height" (substitutionMapping sampleState .lock)
        = specUnionLookup sampleLockProfile sampleFrameConfig.dollar_variables "$frame_height" :=
  ⟨c6_substitution_union sampleState sampleFrameConfig sampleLockProfile .lock rfl
      (Or.inl ⟨rfl, rfl⟩) (by decide) (by decide) (by decide) "depth",
    c6_substitution_union sampleState sampleFrameConfig sampleLockProfile .lock rfl
      (Or.inl ⟨rfl, rfl⟩) (by decide) (by decide) (by decide) "$frame_height"⟩

/-! ## Export writer (`GCodeGenerator.export_files`)

`export_files` iterates the six slots (sides outer, file types inner),
skips slots whose manual content is falsy (the empty string), and for
the others writes `os.path.join(output_directory, "cnc", side_fr,
f"{side_en}_{file_type}.txt")` with the content converted by
`content.replace('\n', '\r\n').replace('\r\r\n', '\r\n')`, returning the
list of written paths together with the `cnc` directory.  Path joins are
modelled with the `/` separator; the filesystem side effects (directory
deletion and creation, the actual writes) are represented by the list of
path/content pairs the loop produces. -/

/-- Fuel-driven model of Python `str.replace` for a nonempty pattern:
leftmost, non-overlapping, replaced text never rescanned. -/
def replF (pat repl : List Char) : Nat → List Char → List Char
  | _, [] => []
  | 0, l => l
  | fuel + 1, c :: rest =>
    if pat.isPrefixOf (c :: rest) then
      repl ++ replF pat repl fuel ((c :: rest).drop pat.length)
    else c :: replF pat repl fuel rest

theorem replF_step (pat repl : List Char) (hpat : pat ≠ []) :
    ∀ fuel l, l.length ≤ fuel → replF pat repl (fuel + 1) l = replF pat repl fuel l := by
  intro fuel
  induction fuel with
  | zero =>
    intro l hl
    have : l = [] := List.length_eq_zero.mp (Nat.le_zero.mp hl)
    subst this; rfl
  | succ n ih =>
    intro l hl
    match l with
    | [] => rfl
    | c :: rest =>
      have hl₂ : rest.length ≤ n := by
        simp only [List.length_cons] at hl
        omega
      show replF pat repl (n + 1 + 1) (c :: rest) = replF pat repl (n + 1) (c :: rest)
      simp only [replF]
      by_cases hpre : pat.isPrefixOf (c :: rest)
      · have hplen : 1 ≤ pat.length := by
          rcases pat with _ | ⟨p, ps⟩
          · exact absurd rfl hpat
          · simp
        have hlen : ((c :: rest).drop pat.length).length ≤ n := by
          simp only [List.length_drop, List.length_cons]
          omega
        simp [hpre, ih _ hlen]
      · simp [hpre, ih rest hl₂]

theorem replF_of_le (pat repl : List Char) (hpat : pat ≠ []) :
    ∀ fuel l, l.length ≤ fuel → replF pat repl fuel l = replF pat repl l.length l := by
  intro fuel
  induction fuel with
  | zero =>
    intro l hl
    have : l = [] := List.length_eq_zero.mp (Nat.le_zero.mp hl)
    subst this; rfl
  | succ n ih =>
    intro l hl
    rcases Nat.lt_or_ge l.length (n + 1) with h | h
    · have h₂ : l.length ≤ n := Nat.le_of_lt_succ h
      rw [replF_step pat repl hpat n l h₂, ih l h₂]
    · have : l.length = n + 1 := Nat.le_antisymm hl h
      rw [this]

/-- List-level `str.replace` with exactly enough fuel. -/
def replaceL (pat repl l : List Char) : List Char := replF pat repl l.length l

theorem replaceL_nil (pat repl : List Char) : replaceL pat repl [] = [] := rfl

theorem replaceL_pos (pat repl : List Char) (c : Char) (rest : List Char) (hpat : pat ≠ [])
    (hpre : pat.isPrefixOf (c :: rest) = true) :
    replaceL pat repl (c :: rest)
      = repl ++ replaceL pat repl ((c :: rest).drop pat.length) := by
  show replF pat repl (rest.length + 1) (c :: rest) = _
  have hplen : 1 ≤ pat.length := by
    rcases pat with _ | ⟨p, ps⟩
    · exact absurd rfl hpat
    · simp
  have hlen : ((c :: rest).drop pat.length).length ≤ rest.length := by
    simp only [List.length_drop, List.length_cons]
    omega
  simp only [replF, hpre, if_true]
  rw [replF_of_le pat repl hpat rest.length _ hlen]
  rfl

theorem replaceL_neg (pat repl : List Char) (c : Char) (rest : List Char)
    (hpre : pat.isPrefixOf (c :: rest) = false) :
    replaceL pat repl (c :: rest) = c :: replaceL pat repl rest := by
  show replF pat repl (rest.length + 1) (c :: rest) = _
  simp only [replF, hpre, Bool.false_eq_true, if_false]
  rfl

/-- Python `s.replace(pat, repl)`; the generator only calls it with the
nonempty patterns `"\n"` and `"\r\r\n"` (the empty-pattern guard keeps
the model total without being exercised). -/
def pyReplace (s pat repl : String) : String :=
  if pat.data.isEmpty then s else ⟨replaceL pat.data repl.data s.data⟩

/-- Line 315: `content.replace('\n', '\r\n').replace('\r\r\n', '\r\n')`. -/
def normalizeContent (content : String) : String :=
  pyReplace (pyReplace content "\n" "\r\n") "\r\r\n" "\r\n"

/-- Text whose line breaks are exactly `\r\n` pairs: no stray `\r`, no
bare `\n`. -/
def crlfOnly : List Char → Bool
  | [] => true
  | [c] => decide (c ≠ '\r') && decide (c ≠ '\n')
  | c :: c₂ :: rest =>
    if c = '\r' then decide (c₂ = '\n') && crlfOnly rest
    else decide (c ≠ '\n') && crlfOnly (c₂ :: rest)

theorem crlf_roundtrip_aux :
    ∀ n l, l.length ≤ n → crlfOnly l = true →
      replaceL ['\r', '\r', '\n'] ['\r', '\n'] (replaceL ['\n'] ['\r', '\n'] l) = l := by
  intro n
  induction n with
  | zero =>
    intro l hl _
    have : l = [] := List.length_eq_zero.mp (Nat.le_zero.mp hl)
    subst this; rfl
  | succ n ih =>
    intro l hl hc
    match l with
    | [] => rfl
    | [c] =>
      simp only [crlfOnly, Bool.and_eq_true, decide_eq_true_eq] at hc
      obtain ⟨hr, hn⟩ := hc
      have hb₁ : (('\n' : Char) == c) = false :=
        beq_eq_false_iff_ne.mpr fun hh => hn hh.symm
      have h₁ : (['\n'] : List Char).isPrefixOf [c] = false := by
        simp [List.isPrefixOf, hb₁]
      have h₂ : (['\r', '\r', '\n'] : List Char).isPrefixOf [c] = false := by
        simp [List.isPrefixOf]
      rw [replaceL_neg _ _ _ _ h₁, replaceL_nil, replaceL_neg _ _ _ _ h₂, replaceL_nil]
    | c :: c₂ :: rest =>
      have hlr : rest.length ≤ n := by
        simp only [List.length_cons] at hl
        omega
      have hlc : (c₂ :: rest).length ≤ n := by
        simp only [List.length_cons] at hl ⊢
        omega
      by_cases hcr : c = '\r'
      · subst hcr
        simp only [crlfOnly, if_pos, Bool.and_eq_true, decide_eq_true_eq, reduceIte] at hc
        obtain ⟨hn, hrest⟩ := hc
        subst hn
        rw [replaceL_neg ['\n'] ['\r', '\n'] '\r' ('\n' :: rest) rfl]
        rw [replaceL_pos ['\n'] ['\r', '\n'] '\n' rest (by simp) (by simp [List.isPrefixOf])]
        show replaceL ['\r', '\r', '\n'] ['\r', '\n']
            ('\r' :: '\r' :: '\n' :: replaceL ['\n'] ['\r', '\n'] rest)
          = '\r' :: '\n' :: rest
        rw [replaceL_pos ['\r', '\r', '\n'] ['\r', '\n'] '\r'
          ('\r' :: '\n' :: replaceL ['\n'] ['\r', '\n'] rest) (by simp)
          (by simp [List.isPrefixOf])]
        show '\r' :: '\n'
            :: replaceL ['\r', '\r', '\n'] ['\r', '\n'] (replaceL ['\n'] ['\r', '\n'] rest)
          = '\r' :: '\n' :: rest
        rw [ih rest hlr hrest]
      · simp only [crlfOnly, if_neg hcr, Bool.and_eq_true, decide_eq_true_eq] at hc
        obtain ⟨hn, hrest⟩ := hc
        have hb₁ : (('\n' : Char) == c) = false :=
          beq_eq_false_iff_ne.mpr fun hh => hn hh.symm
        have h₁ : (['\n'] : List Char).isPrefixOf (c :: c₂ :: rest) = false := by
          simp [List.isPrefixOf, hb₁]
        rw [replaceL_neg _ _ _ _ h₁]
        have hb₂ : (('\r' : Char) == c) = false :=
          beq_eq_false_iff_ne.mpr fun hh => hcr hh.symm
        have h₂ : (['\r', '\r', '\n'] : List Char).isPrefixOf
            (c :: replaceL ['\n'] ['\r', '\n'] (c₂ :: rest)) = false := by
          simp [List.isPrefixOf, hb₂]
        rw [replaceL_neg _ _ _ _ h₂, ih (c₂ :: rest) hlc hrest]

theorem crlf_roundtrip (s : String) (h : crlfOnly s.data = true) :
    normalizeContent s = s := by
  apply String.ext
  show replaceL ['\r', '\r', '\n'] ['\r', '\n'] (replaceL ['\n'] ['\r', '\n'] s.data) = s.data
  exact crlf_roundtrip_aux s.data.length s.data (Nat.le_refl _) h

/-- `('left', 'gauche')` / `('right', 'droite')` of the export loop. -/
def sideDirName : Side → String
  | .left => "gauche"
  | .right => "droite"

def sideName : Side → String
  | .left => "left"
  | .right => "right"

def ftypeName : FType → String
  | .frame => "frame"
  | .lock => "lock"
  | .hinge => "hinge"

/-- The path below the output directory:
`/cnc/<side_fr>/<side_en>_<file_type>.txt`. -/
def pathSuffix (side : Side) (ftype : FType) : String :=
  "/cnc/" ++ sideDirName side ++ "/" ++ sideName side ++ "_" ++ ftypeName ftype ++ ".txt"

def exportPath (outputDirectory : String) (side : Side) (ftype : FType) : String :=
  outputDirectory ++ pathSuffix side ftype

/-- The write (if any) performed for one slot. -/
def slotWrite (st : GenState) (outputDirectory : String) (side : Side) (ftype : FType) :
    List (String × String) :=
  if getFileContent st side ftype = "" then []
  else [(exportPath outputDirectory side ftype,
    normalizeContent (getFileContent st side ftype))]

/-- The slots in loop order: sides outer, file types inner. -/
def exportSlots : List (Side × FType) :=
  [(.left, .frame), (.left, .lock), (.left, .hinge),
   (.right, .frame), (.right, .lock), (.right, .hinge)]

/-- All path/content pairs written by `export_files`. -/
def exportWrites (st : GenState) (outputDirectory : String) : List (String × String) :=
  exportSlots.foldl (fun acc sf => acc ++ slotWrite st outputDirectory sf.1 sf.2) []

/-- The `(exported_files, cnc_dir)` return value of `export_files`. -/
def exportFiles (st : GenState) (outputDirectory : String) : List String × String :=
  ((exportWrites st outputDirectory).map Prod.fst, outputDirectory ++ "/cnc")

theorem pathSuffix_injective : ∀ (s₁ : Side) (f₁ : FType) (s₂ : Side) (f₂ : FType),
    pathSuffix s₁ f₁ = pathSuffix s₂ f₂ → s₁ = s₂ ∧ f₁ = f₂ := by decide

theorem exportPath_inj (d : String) {s₁ s₂ : Side} {f₁ f₂ : FType}
    (h : exportPath d s₁ f₁ = exportPath d s₂ f₂) : s₁ = s₂ ∧ f₁ = f₂ := by
  have h₂ := congrArg String.data h
  simp only [exportPath, String.data_append] at h₂
  exact pathSuffix_injective s₁ f₁ s₂ f₂ (String.ext (List.append_cancel_left h₂))

theorem count_slotWrite (st : GenState) (d : String) (s₂ side : Side) (f₂ ftype : FType) :
    ((slotWrite st d s₂ f₂).map Prod.fst).count (exportPath d side ftype)
      = if s₂ = side ∧ f₂ = ftype then
          (if getFileContent st side ftype = "" then 0 else 1)
        else 0 := by
  by_cases hsf : s₂ = side ∧ f₂ = ftype
  · obtain ⟨h₁, h₂⟩ := hsf
    subst h₁; subst h₂
    by_cases hcont : getFileContent st s₂ f₂ = "" <;>
      simp [slotWrite, hcont, List.count_cons]
  · by_cases hcont : getFileContent st s₂ f₂ = ""
    · simp [slotWrite, hcont, hsf]
    · have hne : exportPath d s₂ f₂ ≠ exportPath d side ftype := fun he =>
        hsf (exportPath_inj d he)
      simp [slotWrite, hcont, hsf, List.count_cons, hne]

theorem exportWrites_expand (st : GenState) (d : String) :
    exportWrites st d
      = slotWrite st d .left .frame ++ slotWrite st d .left .lock
        ++ slotWrite st d .left .hinge ++ slotWrite st d .right .frame
        ++ slotWrite st d .right .lock ++ slotWrite st d .right .hinge := by
  simp [exportWrites, exportSlots, List.foldl]

theorem map_fst_export_foldl (st : GenState) (d : String) :
    ∀ (slots : List (Side × FType)) (acc : List (String × String)),
      ((slots.foldl (fun acc sf => acc ++ slotWrite st d sf.1 sf.2) acc).map Prod.fst)
        = acc.map Prod.fst
          ++ (slots.filter fun sf => !(getFileContent st sf.1 sf.2 == "")).map
              (fun sf => exportPath d sf.1 sf.2) := by
  intro slots
  induction slots with
  | nil => intro acc; simp
  | cons sf rest ih =>
    intro acc
    show ((rest.foldl (fun acc sf => acc ++ slotWrite st d sf.1 sf.2)
        (acc ++ slotWrite st d sf.1 sf.2)).map Prod.fst) = _
    rw [ih (acc ++ slotWrite st d sf.1 sf.2)]
    by_cases hcont : getFileContent st sf.1 sf.2 = "" <;>
      simp [slotWrite, hcont, List.filter_cons]

/-- **C7** — export writes exactly one file for each slot with non-empty
manual content, at `<outputDirectory>/cnc/<gauche|droite>/<side>_<type>.txt`
(side directory localized, file name in English); slots with empty manual
content produce no file; the returned list is exactly the written paths
in loop order; the written content is the manual text with `\n` expanded
to `\r\n` and any resulting `\r\r\n` collapsed, so text already using
`\r\n` line endings round-trips unchanged. -/
theorem c7_export_writer (st : GenState) (outputDirectory : String) (side : Side)
    (ftype : FType) :
    ((exportPath outputDirectory side ftype,
        normalizeContent (getFileContent st side ftype)) ∈ exportWrites st outputDirectory
      ↔ getFileContent st side ftype ≠ "")
    ∧ ((exportWrites st outputDirectory).map Prod.fst).count
        (exportPath outputDirectory side ftype)
      = (if getFileContent st side ftype = "" then 0 else 1)
    ∧ (exportFiles st outputDirectory).1
      = (exportSlots.filter fun sf => !(getFileContent st sf.1 sf.2 == "")).map
          (fun sf => exportPath outputDirectory sf.1 sf.2)
    ∧ (∀ s : String, crlfOnly s.data = true → normalizeContent s = s) := by
  have hcount : ((exportWrites st outputDirectory).map Prod.fst).count
      (exportPath outputDirectory side ftype)
      = (if getFileContent st side ftype = "" then 0 else 1) := by
    rw [exportWrites_expand]
    simp only [List.map_append, List.count_append, count_slotWrite]
    cases side <;> cases ftype <;> simp
  refine ⟨?_, hcount, ?_, ?_⟩
  · constructor
    · intro hmem hempty
      have hfst : exportPath outputDirectory side ftype
          ∈ (exportWrites st outputDirectory).map Prod.fst :=
        List.mem_map_of_mem Prod.fst hmem
      have hpos := List.count_pos_iff.mpr hfst
      rw [hcount, if_pos hempty] at hpos
      exact Nat.lt_irrefl 0 hpos
    · intro hne
      rw [exportWrites_expand]
      cases side <;> cases ftype <;> simp [slotWrite, hne]
  · show ((exportWrites st outputDirectory).map Prod.fst) = _
    rw [exportWrites]
    rw [map_fst_export_foldl st outputDirectory exportSlots []]
    simp
  · intro s hs
    exact crlf_roundtrip s hs

/-- Witness for C7: on `sampleState` the right lock slot (manual content
`"X"`) is exported, and a CRLF text is not double-converted. -/
theorem c7_export_writer_witness :
    (exportPath "out" .right .lock,
        normalizeContent (getFileContent sampleState .right .lock))
        ∈ exportWrites sampleState "out"
      ∧ normalizeContent "G0 X1\r\nG1 Y2\r\n" = "G0 X1\r\nG1 Y2\r\n" :=
  ⟨(c7_export_writer sampleState "out" .right .lock).1.mpr (by decide),
    (c7_export_writer sampleState "out" .right .lock).2.2.2 "G0 X1\r\nG1 Y2\r\n" (by decide)⟩

end NipuerCNC
